import Mathlib

/-!
Verification development for the `gr` parallel recursive grep utility.

The definitions below are a shallow embedding of the C++ sources:
  * `src/gr.c++`   — `is_binary`, `SearchJob::run_unchecked` (the per-file
    search pipeline), `SearchJob::truncate_span`, `SearchJob::calcWidth`,
    `SearchJob::pretty_path`, `AddPathsJob::is_ignored`, `main`;
  * `src/job.h`    — `WorkQueue` (`push` / `runOne` / `runUntilEmpty`);
  * `src/circle_queue.h` — `CircleQueue` (`emplace`, `size`, `index`);
  * `src/gr.c++` `ArgParser::read_int` — numeric option parsing.

File contents (bytes) are modelled as `List Nat` (each element a byte value),
strings as `List Char`, and the RE2 partial-match operation as an abstract
predicate `re : List Nat → Bool` (partial match of the compiled pattern
against a byte string).  Machine integers are modelled as `Nat`; the only
arithmetic that could overflow in the sources (`uint16_t` option values,
`uint8_t maxWidth`) is range-checked in the code itself or bounded (≤ 8).
-/

/-! ## Binary detection (`src/gr.c++`, `is_binary`) -/

/-- The UTF-8 byte-order-mark bytes `EF BB BF`. -/
def bomBytes : List Nat := [0xef, 0xbb, 0xbf]

/-- The bytes of the string `%PDF-`. -/
def pdfBytes : List Nat := [0x25, 0x50, 0x44, 0x46, 0x2d]

/-- Embedding of `is_binary` from `src/gr.c++`: empty buffers are not binary;
a buffer starting with the UTF-8 BOM is not binary; then a `%PDF-` magic or a
NUL byte anywhere makes it binary. -/
def is_binary (buf : List Nat) : Bool :=
  if buf.length = 0 then false
  else if bomBytes.isPrefixOf buf then false
  else if pdfBytes.isPrefixOf buf then true
  else if buf.contains 0 then true
  else false

/-! ## UTF-8-aware truncation (`src/gr.c++`, `SearchJob::truncate_span`) -/

/-- The code's test `(*it & 0xc0) == 0x80` for a UTF-8 continuation byte. -/
def isCont (b : Nat) : Bool := b &&& 0xc0 == 0x80

/-- Number of leading continuation bytes of a byte list (the reverse scan of
the code counts trailing continuation bytes of the truncated span). -/
def contRun : List Nat → Nat
  | [] => 0
  | b :: t => if isCont b then contRun t + 1 else 0

/-- The `mask_check` table of `truncate_span`: row `i` classifies the byte
found `i` positions from the end; row 4 is the invalid-UTF-8 passthrough. -/
def maskCheck : Nat → Nat × Nat
  | 0 => (0x80, 0x00)
  | 1 => (0xe0, 0xc0)
  | 2 => (0xf0, 0xe0)
  | 3 => (0xf8, 0xf0)
  | _ => (0, 0)

/-- The codepoint-boundary adjustment applied by `truncate_span` to the
2048-byte prefix: scan back over at most four continuation bytes, classify
the byte reached by the `mask_check` table, and drop the scanned suffix
when it is not a complete codepoint of exactly that length. -/
def adjust (l : List Nat) : List Nat :=
  let r := l.reverse
  let i := min (contRun r) 4
  let mc := maskCheck i
  if r.getD i 0 &&& mc.1 == mc.2 then l else l.take (l.length - (i + 1))

/-- Embedding of `SearchJob::truncate_span`: with `--long-lines` or a hard
end offset of at most 2048, the span `view[0..e]` is returned unchanged;
otherwise the 2048-byte prefix is cut back to a codepoint boundary. -/
def truncate_span (llflag : Bool) (view : List Nat) (e : Nat) : List Nat :=
  if llflag || e ≤ 2048 then view.take e else adjust (view.take 2048)

/-! ## Line-number column width (`src/gr.c++`, `SearchJob::calcWidth`) -/

/-- Embedding of `SearchJob::calcWidth`: the if-chain caps at 8. -/
def calcWidth (n : Nat) : Nat :=
  if n < 10 then 1
  else if n < 100 then 2
  else if n < 1000 then 3
  else if n < 10000 then 4
  else if n < 100000 then 5
  else if n < 1000000 then 6
  else if n < 10000000 then 7
  else 8

/-! ## The per-file search pipeline (`src/gr.c++`, `SearchJob::run_unchecked`) -/

/-- The `Match` record built by `try_add_match`. -/
structure Match where
  line : Nat
  text : List Nat
  truncated : Bool
deriving DecidableEq

/-- Position of the first newline byte in a view (`view.find('\n')`). -/
def findNl : List Nat → Option Nat
  | [] => none
  | b :: t => if b = 10 then some 0 else (findNl t).map (· + 1)

/-- Embedding of the `try_add_match` lambda: truncate the candidate span,
probe the regex on the truncated text, and on a hit append the match record
(with `truncated = (end != text.size())`) and overwrite `maxWidth` with
`calcWidth(line)`. -/
def tryAdd (re : List Nat → Bool) (llflag : Bool) (view : List Nat)
    (line e : Nat) (acc : List Match × Nat) : List Match × Nat :=
  let text := truncate_span llflag view e
  if re text then (acc.1 ++ [⟨line, text, decide (e ≠ text.length)⟩], calcWidth line)
  else acc

/-- The line-walking loop of `run_unchecked`, with explicit fuel.  Each
iteration of the C++ loop either ends the walk or removes `nl + 1 ≥ 1`
bytes from the view, so `view.length + 1` fuel (as supplied by
`collectMatches`) always exceeds the iteration count and the fuel-out
branch is never taken on the loop's own inputs. -/
def collectGo (re : List Nat → Bool) (llflag : Bool) :
    Nat → List Nat → Nat → List Match × Nat → List Match × Nat
  | 0, _, _, acc => acc
  | fuel + 1, view, line, acc =>
    if view.isEmpty then acc
    else
      match findNl view with
      | none => tryAdd re llflag view (line + 1) view.length acc
      | some nl =>
          collectGo re llflag fuel (view.drop (nl + 1)) (line + 1)
            (tryAdd re llflag view (line + 1) nl acc)

/-- The match list and final `maxWidth` produced by the line walk. -/
def collectMatches (re : List Nat → Bool) (llflag : Bool)
    (view : List Nat) : List Match × Nat :=
  collectGo re llflag (view.length + 1) view 0 ([], 0)

/-- The lines of a buffer as decomposed by the walk: split at each newline
byte; a trailing unterminated line is kept, a trailing newline does not
produce an extra empty line. -/
def splitGo : Nat → List Nat → List (List Nat)
  | 0, _ => []
  | fuel + 1, view =>
    if view.isEmpty then []
    else
      match findNl view with
      | none => [view]
      | some nl => view.take nl :: splitGo fuel (view.drop (nl + 1))

/-- The per-line decomposition of a buffer (see `splitGo`). -/
def splitLines (view : List Nat) : List (List Nat) := splitGo (view.length + 1) view

/-- Abstraction of the control-flow outcome of `SearchJob::run_unchecked`
for one file:
  * `binarySkip`   — the early `return` after `is_binary`;
  * `noMatch`      — the early `return` after the failed whole-buffer probe;
  * `fileNameOnly` — the `-l` branch (prints the path, sets the flag);
  * `block ms w`   — the emission block: header plus either the match lines
    or, when `ms = []`, the notice `(matched too far into line to display)`;
    the flag is set in this branch via `test_and_set`. -/
inductive SearchResult where
  | binarySkip : SearchResult
  | noMatch : SearchResult
  | fileNameOnly : SearchResult
  | block : List Match → Nat → SearchResult
deriving DecidableEq

/-- Whether the outcome writes anything to stdout: the two early returns
print nothing; `-l` prints the path; the block branch always prints at
least the file header. -/
def producesOutput : SearchResult → Bool
  | .binarySkip => false
  | .noMatch => false
  | .fileNameOnly => true
  | .block _ _ => true

/-- Whether the outcome executes `state.matched_one.test_and_set()`. -/
def setsFlag : SearchResult → Bool
  | .binarySkip => false
  | .noMatch => false
  | .fileNameOnly => true
  | .block _ _ => true

/-- Embedding of `SearchJob::run_unchecked` on a file whose contents are
`content`: binary check on the first `min(512, len)` bytes, then the
whole-buffer partial-match probe, then the `-l` shortcut, then the
line-by-line walk feeding the emission block. -/
def searchJob (lflag : Bool) (re : List Nat → Bool) (llflag : Bool)
    (content : List Nat) : SearchResult :=
  if is_binary (content.take 512) then .binarySkip
  else if !re content then .noMatch
  else if lflag then .fileNameOnly
  else
    let mw := collectMatches re llflag content
    .block mw.1 mw.2

/-! ## Path prettying (`src/gr.c++`, `SearchJob::pretty_path`) -/

/-- `q += *it` concatenation of the remaining components: `fs::path`'s
`operator+=` appends the component text without inserting a separator. -/
def joinComps (cs : List (List Char)) : List Char := cs.foldl (· ++ ·) []

/-- `path.string()` for a relative path given by its components: the
components joined by `/` separators. -/
def pathString (cs : List (List Char)) : List Char :=
  match cs with
  | [] => []
  | c :: rest => rest.foldl (fun a d => a ++ '/' :: d) c

/-- Embedding of `SearchJob::pretty_path`: when the first component is `.`,
print the concatenation (no separators) of the remaining components;
otherwise print the path verbatim. -/
def pretty_path (cs : List (List Char)) : List Char :=
  if cs.headD [] = ['.'] then joinComps cs.tail else pathString cs

/-! ## The dotfile rule (`src/gr.c++`, `AddPathsJob::is_ignored`) -/

/-- Embedding of `AddPathsJob::is_ignored` applied to the path's final
component: `name != "." && name != ".." && name.starts_with('.')`. -/
def is_ignored (name : List Char) : Bool :=
  !(name == ['.']) && !(name == ['.', '.']) && (name.headD ' ' == '.')

/-- The step-1 skip decision of `AddPathsJob::run_unchecked`, as a function
of whether the path was requested on the command line.  The C++ class has no
`requested` field: `main` and the directory walk construct `AddPathsJob`
identically, so the parameter is unused — exactly as in the source. -/
def addPathsSkips (_requested : Bool) (comps : List (List Char)) : Bool :=
  is_ignored (comps.getLastD [])

/-! ## Numeric option arguments (`src/gr.c++`, `ArgParser::read_int`) -/

/-- Decimal value of a digit list. -/
def digitsToNat (ds : List Char) : Nat :=
  ds.foldl (fun a c => 10 * a + (c.toNat - 48)) 0

/-- Embedding of `read_int` instantiated at `uint16_t` (the type of
`before_context` / `after_context`): `std::from_chars` consumes the maximal
leading digit run (no sign accepted for an unsigned type), fails when there
are no digits or the value exceeds 65535, and `read_int` additionally
requires the whole argument to be consumed; any failure throws
`ArgumentError`, modelled as `none`. -/
def parseU16 (s : List Char) : Option Nat :=
  let ds := s.takeWhile Char.isDigit
  if ds.isEmpty then none
  else if 65535 < digitsToNat ds then none
  else if ds.length ≠ s.length then none
  else some (digitsToNat ds)

/-! ## The driver (`src/gr.c++`, `main`) -/

/-- The option flags of `Opts` that decide the driver's exit path. -/
structure Opts where
  hflag : Bool
  version : Bool
  lflag : Bool
  llflag : Bool
deriving DecidableEq

/-- Outcome of `ArgParser::parse_args`: an `ArgumentError` throw or a
parsed `Opts`. -/
inductive ParseResult where
  | err : ParseResult
  | opts : Opts → ParseResult
deriving DecidableEq

/-- The exit code computed by `main`: an `ArgumentError` reaches `usage`
(exit 2); `hflag` reaches `usage` (exit 2); `version` prints the version and
exits 0; otherwise the worker pool searches every discovered file and the
driver returns 0 when `matched_one` was set and 1 otherwise.  `files` is the
list of contents of the searched files. -/
def mainExitCode (pr : ParseResult) (files : List (List Nat))
    (re : List Nat → Bool) : Nat :=
  match pr with
  | .err => 2
  | .opts o =>
    if o.hflag then 2
    else if o.version then 0
    else if files.any (fun c => setsFlag (searchJob o.lflag re o.llflag c)) then 0
    else 1

/-- The result of handing a numeric option argument to `read_int` inside
`parse_args`: a parse failure throws, caught in `main` as `ParseResult.err`;
success leaves the remaining options `o`. -/
def contextParse (s : List Char) (o : Opts) : ParseResult :=
  if (parseU16 s).isSome then .opts o else .err

/-! ## The work queue (`src/job.h`, `WorkQueue`) -/

/-- Abstract state of a `WorkQueue` under any interleaving of its atomic
actions: `chain` is the front-to-back linked list of queued jobs (job ids),
`pending` the atomic counter, `running` the number of jobs currently
executing in workers, and `prelink` the number of `push` calls that have
incremented `pending` but not yet linked their job under the lock. -/
structure QState where
  chain : List Nat
  pending : Nat
  running : Nat
  prelink : Nat
deriving DecidableEq

/-- The initial, empty queue. -/
def qInit : QState := ⟨[], 0, 0, 0⟩

/-- The atomic actions of `WorkQueue`:
  * `pushInc`  — the `++pending` at the top of `push`;
  * `pushLink` — the linking of the job at the tail under the lock;
  * `take`     — `runOne`'s locked unlink of the front job, which then runs;
  * `finish`   — the job body returning: `--pending` in the `Defer`. -/
inductive QStep : QState → QState → Prop
  | pushInc (c p r k) : QStep ⟨c, p, r, k⟩ ⟨c, p + 1, r, k + 1⟩
  | pushLink (j c p r k) : QStep ⟨c, p, r, k + 1⟩ ⟨c ++ [j], p, r, k⟩
  | take (j c p r k) : QStep ⟨j :: c, p, r, k⟩ ⟨c, p, r + 1, k⟩
  | finish (c p r k) : QStep ⟨c, p + 1, r + 1, k⟩ ⟨c, p, r, k⟩

/-- States reachable from the empty queue by any interleaving of `push`,
`runOne` and `runUntilEmpty` steps. -/
def QReachable (s : QState) : Prop := Relation.ReflTransGen QStep qInit s

/-- The lock-protected body of `push` as a function: link the job at the
tail and report `hadNone`, which the code computes as `back == nullptr`
before the link and uses to decide whether to signal the CV. -/
def pushLinkFn (s : QState) (j : Nat) : QState × Bool :=
  ({ s with chain := s.chain ++ [j], prelink := s.prelink - 1 }, s.chain.isEmpty)

/-! ## The bounded ring (`src/circle_queue.h`, `CircleQueue`) -/

/-- State of a `CircleQueue<T>` with capacity `C`: the `full` flag, the
`start` cursor, and the backing array modelled as a map from slot index to
the value constructed there (`none` for never-constructed storage). -/
structure CQ (α : Type) where
  full : Bool
  start : Nat
  data : Nat → Option α

/-- A freshly constructed `CircleQueue` (constructor plus `alloc`). -/
def CQ.init (α : Type) : CQ α := ⟨false, 0, fun _ => none⟩

/-- Embedding of `CircleQueue::emplace`: both branches write the slot
`start` (`construct_at` when not full, move-assignment when full), then
advance and wrap the cursor.  The write is in bounds only when
`start < C`; with capacity 0 the backing pointer is null and the
`construct_at` is an out-of-bounds write, modelled as the faulting
result `none`. -/
def CQ.emplace {α : Type} (C : Nat) (s : CQ α) (x : α) : Option (CQ α) :=
  if s.start < C then
    some { full := if s.start + 1 = C then true else s.full
           start := if s.start + 1 = C then 0 else s.start + 1
           data := fun j => if j = s.start then some x else s.data j }
  else none

/-- Embedding of `CircleQueue::size`. -/
def CQ.size {α : Type} (C : Nat) (s : CQ α) : Nat := if s.full then C else s.start

/-- Embedding of `CircleQueue::index`. -/
def CQ.index {α : Type} (C : Nat) (s : CQ α) (i : Nat) : Nat :=
  if s.full then (s.start + i) % C else i

/-- The sequence yielded by `begin()..end()` iteration: element `i` of the
iteration reads slot `index(i)`, for `i < size()`. -/
def CQ.toList {α : Type} (C : Nat) (s : CQ α) : List (Option α) :=
  (List.range (CQ.size C s)).map (fun i => s.data (CQ.index C s i))

/-- A finite sequence of `emplace` calls on a fresh queue, propagating the
faulting result. -/
def runEmplaces {α : Type} (C : Nat) (xs : List α) : Option (CQ α) :=
  xs.foldl (fun s? x => s? >>= fun s => CQ.emplace C s x) (some (CQ.init α))

/-- The last `min C n` items of a list, oldest first. -/
def lastN {α : Type} (C : Nat) (xs : List α) : List α := xs.drop (xs.length - C)

/-! ## Theorems -/

theorem qstep_invariant {s t : QState} (h : QStep s t)
    (hs : s.pending = s.chain.length + s.running + s.prelink) :
    t.pending = t.chain.length + t.running + t.prelink := by
  cases h <;> simp_all [List.length_append] <;> omega

theorem qreachable_invariant {s : QState} (h : QReachable s) :
    s.pending = s.chain.length + s.running + s.prelink := by
  induction h with
  | refl => rfl
  | tail _ hstep ih => exact qstep_invariant hstep ih

/-- C2: in every reachable `WorkQueue` state, `pending = 0` (as observed at
a wait point) implies the linked chain is empty, no job is executing, and no
push is between its increment and its link; and the locked body of `push`
reports `hadNone` (and so signals the CV) exactly when the chain was empty
before the push. -/
theorem wq_pending_zero_quiescent :
    (∀ s : QState, QReachable s → s.pending = 0 →
        s.chain = [] ∧ s.running = 0 ∧ s.prelink = 0) ∧
    (∀ (s : QState) (j : Nat), (pushLinkFn s j).2 = true ↔ s.chain = []) := by
  constructor
  · intro s hs hp
    have h := qreachable_invariant hs
    have hc : s.chain.length = 0 ∧ s.running = 0 ∧ s.prelink = 0 := by omega
    exact ⟨List.length_eq_zero.mp hc.1, hc.2.1, hc.2.2⟩
  · intro s j
    simp [pushLinkFn]

/-- Witness for `wq_pending_zero_quiescent` at the initial state. -/
theorem wq_pending_zero_quiescent_witness :
    (qInit.chain = [] ∧ qInit.running = 0 ∧ qInit.prelink = 0) ∧
    ((pushLinkFn qInit 0).2 = true ↔ qInit.chain = []) :=
  ⟨wq_pending_zero_quiescent.1 qInit Relation.ReflTransGen.refl rfl,
   wq_pending_zero_quiescent.2 qInit 0⟩

/-- C4 counterexample: the path `.hidden`, even when requested explicitly on
the command line, is skipped by `AddPathsJob`: the code has no `requested`
exemption, so the claim that a user-given dotfile path is searched fails. -/
theorem dotfile_requested_counterexample :
    is_ignored ['.', 'h', 'i', 'd', 'd', 'e', 'n'] = true ∧
    addPathsSkips true [['.', 'h', 'i', 'd', 'd', 'e', 'n']] = true := by
  decide

/-- C4 (amended): `AddPathsJob` skips a path silently iff its final
component begins with `.` and is neither `.` nor `..`, regardless of whether
the path was given explicitly by the user. -/
theorem dotfile_rule_all_paths :
    ∀ (requested : Bool) (comps : List (List Char)),
      addPathsSkips requested comps = true ↔
        (comps.getLastD [] ≠ ['.'] ∧ comps.getLastD [] ≠ ['.', '.'] ∧
         (comps.getLastD []).headD ' ' = '.') := by
  intro _ comps
  simp [addPathsSkips, is_ignored, and_assoc]

/-- C5: `is_binary` holds iff the prefix does not start with the UTF-8 BOM
and either starts with `%PDF-` or contains a NUL byte; a binary file is
skipped with no output and no flag change; in particular a file that is a
single NUL byte is skipped, and with it as the only file the driver exits 1. -/
theorem is_binary_spec :
    (∀ buf : List Nat,
        is_binary buf =
          (!(bomBytes.isPrefixOf buf) &&
            (pdfBytes.isPrefixOf buf || buf.contains 0))) ∧
    (∀ (lflag llflag : Bool) (re : List Nat → Bool) (content : List Nat),
        is_binary (content.take 512) = true →
        searchJob lflag re llflag content = .binarySkip ∧
        producesOutput (searchJob lflag re llflag content) = false ∧
        setsFlag (searchJob lflag re llflag content) = false) ∧
    (∀ (lflag llflag : Bool) (re : List Nat → Bool),
        searchJob lflag re llflag [0] = .binarySkip) ∧
    (∀ (re : List Nat → Bool) (o : Opts), o.hflag = false → o.version = false →
        mainExitCode (.opts o) [[0]] re = 1) := by
  refine ⟨?_, ?_, ?_, ?_⟩
  · intro buf
    match buf with
    | [] => decide
    | b :: t =>
      cases hb : bomBytes.isPrefixOf (b :: t) <;>
        cases hp : pdfBytes.isPrefixOf (b :: t) <;>
          cases hz : (b :: t).contains 0 <;>
            simp_all [is_binary]
  · intro lflag llflag re content hb
    simp [searchJob, hb, producesOutput, setsFlag]
  · intro lflag llflag re
    rfl
  · intro re o h1 h2
    have h3 : searchJob o.lflag re o.llflag [0] = .binarySkip := rfl
    simp [mainExitCode, h1, h2, h3, setsFlag]

/-- Witness for `is_binary_spec`. -/
theorem is_binary_spec_witness :
    (searchJob false (fun _ => false) false [0] = .binarySkip ∧
     producesOutput (searchJob false (fun _ => false) false [0]) = false ∧
     setsFlag (searchJob false (fun _ => false) false [0]) = false) ∧
    mainExitCode (.opts ⟨false, false, false, false⟩) [[0]] (fun _ => false) = 1 :=
  ⟨is_binary_spec.2.1 false false (fun _ => false) [0] (by decide),
   is_binary_spec.2.2.2 (fun _ => false) ⟨false, false, false, false⟩ rfl rfl⟩

/-- C7: exit-code surface of `main`: an `ArgumentError` exits 2; `--help`
and `-h` exit 2; `--version` (without `-h`) exits 0; otherwise the exit code
is 0 iff some searched file set the matched flag and 1 iff none did, and a
file sets the flag iff it is not binary and the regex partially matches its
contents. -/
theorem exit_code_spec :
    (∀ (files : List (List Nat)) (re : List Nat → Bool),
        mainExitCode .err files re = 2) ∧
    (∀ (o : Opts) (files : List (List Nat)) (re : List Nat → Bool),
        o.hflag = true → mainExitCode (.opts o) files re = 2) ∧
    (∀ (o : Opts) (files : List (List Nat)) (re : List Nat → Bool),
        o.hflag = false → o.version = true → mainExitCode (.opts o) files re = 0) ∧
    (∀ (o : Opts) (files : List (List Nat)) (re : List Nat → Bool),
        o.hflag = false → o.version = false →
        ((mainExitCode (.opts o) files re = 0 ↔
            files.any (fun c => setsFlag (searchJob o.lflag re o.llflag c)) = true) ∧
         (mainExitCode (.opts o) files re = 1 ↔
            files.any (fun c => setsFlag (searchJob o.lflag re o.llflag c)) = false))) ∧
    (∀ (lflag llflag : Bool) (re : List Nat → Bool) (c : List Nat),
        setsFlag (searchJob lflag re llflag c) =
          (!is_binary (c.take 512) && re c)) := by
  refine ⟨fun _ _ => rfl, ?_, ?_, ?_, ?_⟩
  · intro o files re h
    simp [mainExitCode, h]
  · intro o files re h1 h2
    simp [mainExitCode, h1, h2]
  · intro o files re h1 h2
    simp only [mainExitCode, h1, h2, if_false]
    constructor <;> constructor <;> intro h <;> simp_all
  · intro lflag llflag re c
    simp only [searchJob]
    split_ifs with h1 h2 h3 <;> simp_all [setsFlag]

/-- Witness for `exit_code_spec`. -/
theorem exit_code_spec_witness :
    mainExitCode (.opts ⟨true, false, false, false⟩) [] (fun _ => false) = 2 ∧
    mainExitCode (.opts ⟨false, true, false, false⟩) [] (fun _ => false) = 0 ∧
    (mainExitCode (.opts ⟨false, false, false, false⟩) [[97]] (fun _ => true) = 0 ↔
      [[97]].any (fun c => setsFlag (searchJob false (fun _ => true) false c)) = true) :=
  ⟨exit_code_spec.2.1 ⟨true, false, false, false⟩ [] (fun _ => false) rfl,
   exit_code_spec.2.2.1 ⟨false, true, false, false⟩ [] (fun _ => false) rfl rfl,
   (exit_code_spec.2.2.2.1 ⟨false, false, false, false⟩ [[97]] (fun _ => true) rfl rfl).1⟩

/-- Substring containment of `pat` in a byte string: the partial-match
semantics of RE2 on a literal pattern. -/
def hasSub (pat : List Nat) : List Nat → Bool
  | [] => pat.isPrefixOf []
  | l@(_ :: t) => pat.isPrefixOf l || hasSub pat t

/-- Partial match of the literal regex `a\nb` (bytes `97 10 98`). -/
def reLit : List Nat → Bool := hasSub [97, 10, 98]

/-- C1 counterexample: on the file `a\nb` with the literal pattern `a\nb`,
no individual line matches, yet `SearchJob` (default mode) produces output
and sets the global matched flag: the whole-buffer probe is not skipped and
an empty match list does not cause an early return. -/
theorem search_probe_counterexample :
    (∀ l ∈ splitLines [97, 10, 98], reLit l = false) ∧
    producesOutput (searchJob false reLit false [97, 10, 98]) = true ∧
    setsFlag (searchJob false reLit false [97, 10, 98]) = true := by
  decide

/-- C1 (amended): in default mode `SearchJob` always runs the whole-buffer
probe; when the probe fails the job returns with no output and the flag
unchanged, and when the probe succeeds the job emits output and sets the
flag even if no individual line matched (printing the notice line in that
case). -/
theorem search_probe_always_runs :
    ∀ (lflag llflag : Bool) (re : List Nat → Bool) (content : List Nat),
      is_binary (content.take 512) = false →
      (re content = false →
        searchJob lflag re llflag content = .noMatch ∧
        producesOutput (searchJob lflag re llflag content) = false ∧
        setsFlag (searchJob lflag re llflag content) = false) ∧
      (re content = true →
        producesOutput (searchJob lflag re llflag content) = true ∧
        setsFlag (searchJob lflag re llflag content) = true) := by
  intro lflag llflag re content hb
  constructor
  · intro hre
    simp [searchJob, hb, hre, producesOutput, setsFlag]
  · intro hre
    cases lflag <;> simp [searchJob, hb, hre, producesOutput, setsFlag]

/-- Witness for `search_probe_always_runs`. -/
theorem search_probe_always_runs_witness :
    searchJob false (fun _ => false) false [97] = .noMatch ∧
    producesOutput (searchJob false (fun _ => false) false [97]) = false ∧
    setsFlag (searchJob false (fun _ => false) false [97]) = false :=
  (search_probe_always_runs false false (fun _ => false) [97] (by decide)).1 rfl

/-- C8 counterexample: a line number of 100000000 has decimal width 9, but
`calcWidth` returns 8 — the column width is not the decimal width of the
largest line number once it reaches nine digits. -/
theorem calcWidth_counterexample :
    ¬ (calcWidth 100000000 = Nat.log 10 100000000 + 1) := by
  have h : Nat.log 10 100000000 = 8 :=
    Nat.log_eq_of_pow_le_of_lt_pow (by norm_num) (by norm_num)
  rw [h]
  decide

/-- Pointwise characterization of `calcWidth`: the decimal width of `n`,
capped at 8. -/
theorem calcWidth_eq_log_min :
    ∀ n : Nat, calcWidth n = min (Nat.log 10 n + 1) 8 := by
  intro n
  unfold calcWidth
  split_ifs with h1 h2 h3 h4 h5 h6 h7
  · rcases Nat.eq_zero_or_pos n with h0 | h0
    · subst h0
      simp [Nat.log_zero_right]
    · have h : Nat.log 10 n = 0 :=
        Nat.log_eq_of_pow_le_of_lt_pow (by simpa using h0) (by simpa using h1)
      omega
  · have h : Nat.log 10 n = 1 :=
      Nat.log_eq_of_pow_le_of_lt_pow (by norm_num; omega) (by norm_num; omega)
    omega
  · have h : Nat.log 10 n = 2 :=
      Nat.log_eq_of_pow_le_of_lt_pow (by norm_num; omega) (by norm_num; omega)
    omega
  · have h : Nat.log 10 n = 3 :=
      Nat.log_eq_of_pow_le_of_lt_pow (by norm_num; omega) (by norm_num; omega)
    omega
  · have h : Nat.log 10 n = 4 :=
      Nat.log_eq_of_pow_le_of_lt_pow (by norm_num; omega) (by norm_num; omega)
    omega
  · have h : Nat.log 10 n = 5 :=
      Nat.log_eq_of_pow_le_of_lt_pow (by norm_num; omega) (by norm_num; omega)
    omega
  · have h : Nat.log 10 n = 6 :=
      Nat.log_eq_of_pow_le_of_lt_pow (by norm_num; omega) (by norm_num; omega)
    omega
  · have h : 7 ≤ Nat.log 10 n := by
      refine (Nat.pow_le_iff_le_log (by norm_num) (by omega)).mp ?_
      norm_num
      omega
    omega

theorem takeWhile_of_all {p : Char → Bool} :
    ∀ {l : List Char}, (∀ c ∈ l, p c = true) → l.takeWhile p = l := by
  intro l h
  induction l with
  | nil => rfl
  | cons c t ih =>
    simp [List.takeWhile_cons, h c (by simp), ih fun d hd => h d (by simp [hd])]

theorem takeWhile_append_of_all {p : Char → Bool} :
    ∀ (a b : List Char), (∀ c ∈ a, p c = true) →
      (a ++ b).takeWhile p = a ++ b.takeWhile p := by
  intro a b h
  induction a with
  | nil => rfl
  | cons c t ih =>
    simp [List.cons_append, List.takeWhile_cons, h c (by simp),
      ih fun d hd => h d (by simp [hd])]

/-- C10: `read_int` at `uint16_t` rejects a leading `-` (no sign is accepted
for an unsigned type), any all-digit value above 65535 (out of range), and
any argument with trailing non-digit characters, exactly as it rejects a
non-numeric argument; every such rejection throws `ArgumentError`, which
`main` turns into exit code 2. -/
theorem read_int_u16_rejects :
    (∀ s : List Char, s.headD ' ' = '-' → parseU16 s = none) ∧
    (∀ ds : List Char, (∀ c ∈ ds, c.isDigit = true) → 65535 < digitsToNat ds →
        parseU16 ds = none) ∧
    (∀ (ds : List Char) (c : Char) (r : List Char),
        (∀ d ∈ ds, d.isDigit = true) → c.isDigit = false →
        parseU16 (ds ++ c :: r) = none) ∧
    (∀ (s : List Char) (o : Opts) (files : List (List Nat))
        (re : List Nat → Bool),
        parseU16 s = none →
        mainExitCode (contextParse s o) files re = 2) := by
  refine ⟨?_, ?_, ?_, ?_⟩
  · intro s hs
    match s with
    | [] => simp at hs
    | c :: t =>
      simp only [List.headD_cons] at hs
      subst hs
      simp [parseU16, List.takeWhile_cons]
  · intro ds hds hv
    rw [parseU16, takeWhile_of_all hds]
    simp only [if_pos, hv]
    split_ifs with h1 <;> simp_all
  · intro ds c r hds hc
    have ht : (ds ++ c :: r).takeWhile Char.isDigit = ds := by
      rw [takeWhile_append_of_all _ _ hds]
      simp [List.takeWhile_cons, hc]
    simp only [parseU16, ht]
    cases ds with
    | nil => simp
    | cons d t =>
      split_ifs with h1 h2 h3 <;> simp_all
  · intro s o files re h
    simp [contextParse, h, mainExitCode]

/-- Witness for `read_int_u16_rejects`. -/
theorem read_int_u16_rejects_witness :
    parseU16 ['-', '1'] = none ∧
    parseU16 ['9', '9', '9', '9', '9'] = none ∧
    parseU16 ['1', '2', 'x'] = none ∧
    mainExitCode (contextParse ['x'] ⟨false, false, false, false⟩) []
      (fun _ => false) = 2 :=
  ⟨read_int_u16_rejects.1 ['-', '1'] rfl,
   read_int_u16_rejects.2.1 ['9', '9', '9', '9', '9'] (by decide) (by decide),
   read_int_u16_rejects.2.2.1 ['1', '2'] 'x' [] (by decide) (by decide),
   read_int_u16_rejects.2.2.2 ['x'] ⟨false, false, false, false⟩ []
     (fun _ => false) (by decide)⟩

/-- A printed header beginning with the two characters `./`. -/
def startsDotSlash (l : List Char) : Prop := ∃ t, l = '.' :: '/' :: t

theorem joinComps_eq_join :
    ∀ (cs : List (List Char)) (a : List Char),
      cs.foldl (· ++ ·) a = a ++ cs.flatten := by
  intro cs
  induction cs with
  | nil => intro a; simp
  | cons c t ih => intro a; simp [List.foldl_cons, ih]

theorem pathString_foldl_shift :
    ∀ (rest : List (List Char)) (a b : List Char),
      rest.foldl (fun x d => x ++ '/' :: d) (a ++ b) =
        a ++ rest.foldl (fun x d => x ++ '/' :: d) b := by
  intro rest
  induction rest with
  | nil => intro a b; rfl
  | cons d t ih =>
    intro a b
    have h : (a ++ b) ++ '/' :: d = a ++ (b ++ '/' :: d) := by simp
    simp only [List.foldl_cons, h, ih]

theorem pathString_cons (c : List Char) (rest : List (List Char)) :
    pathString (c :: rest) =
      c ++ rest.foldl (fun x d => x ++ '/' :: d) [] := by
  have h := pathString_foldl_shift rest c []
  simpa [pathString] using h

/-- C9: when a path's first component is `.`, `pretty_path` prints the
concatenation of the remaining components (dropping the leading `.`); any
other path prints verbatim; and, components being slash-free, no printed
header ever begins with `./`. -/
theorem pretty_path_strips_dot :
    ∀ cs : List (List Char), cs ≠ [] → (∀ c ∈ cs, '/' ∉ c) →
      (cs.headD [] = ['.'] → pretty_path cs = joinComps cs.tail) ∧
      (cs.headD [] ≠ ['.'] → pretty_path cs = pathString cs) ∧
      ¬ startsDotSlash (pretty_path cs) := by
  intro cs hne hsf
  refine ⟨fun h => by unfold pretty_path; rw [if_pos h],
    fun h => by unfold pretty_path; rw [if_neg h], ?_⟩
  rintro ⟨t, ht⟩
  by_cases hd : cs.headD [] = ['.']
  · rw [pretty_path, if_pos hd] at ht
    have hsl : '/' ∈ joinComps cs.tail := by
      rw [ht]; simp
    rw [joinComps, joinComps_eq_join, List.nil_append, List.mem_flatten] at hsl
    obtain ⟨l, hl, hml⟩ := hsl
    exact hsf l (List.mem_of_mem_tail hl) hml
  · rw [pretty_path, if_neg hd] at ht
    match cs, hne with
    | c :: rest, _ =>
      rw [pathString_cons] at ht
      match c, hd with
      | [], _ =>
        rw [List.nil_append] at ht
        cases rest with
        | nil => simp at ht
        | cons d t2 =>
          have h2 := pathString_foldl_shift t2 ('/' :: d) []
          simp only [List.foldl_cons, List.nil_append] at ht
          rw [show ('/' : Char) :: d = ('/' :: d) ++ [] by simp] at ht
          rw [h2] at ht
          simp at ht
      | [ch], hd1 =>
        cases rest with
        | nil => simp at ht
        | cons d t2 =>
          simp only [List.foldl_cons, List.cons_append, List.nil_append] at ht
          injection ht with h1 h2
          exact hd1 (by simp [h1])
      | ch1 :: ch2 :: cr, _ =>
        simp only [List.cons_append] at ht
        have : ch2 = '/' := by
          have := congrArg (fun l => l.get? 1) ht
          simpa using this
        exact hsf (ch1 :: ch2 :: cr) (by simp) (by simp [this])

/-- Witness for `pretty_path_strips_dot` at the path `./a/b`. -/
theorem pretty_path_strips_dot_witness :
    pretty_path [['.'], ['a'], ['b']] = joinComps [['a'], ['b']] ∧
    ¬ startsDotSlash (pretty_path [['.'], ['a'], ['b']]) :=
  ⟨(pretty_path_strips_dot [['.'], ['a'], ['b']] (by decide) (by decide)).1 rfl,
   (pretty_path_strips_dot [['.'], ['a'], ['b']] (by decide) (by decide)).2.2⟩

/-- The `CircleQueue` state invariant after some sequence of emplaces that
left the held items `ys` (oldest first). -/
def CQInv {α : Type} (C : Nat) (ys : List α) (s : CQ α) : Prop :=
  s.start < C ∧ ys.length ≤ C ∧ s.full = decide (ys.length = C) ∧
    CQ.size C s = ys.length ∧ CQ.toList C s = ys.map some

theorem CQInv_init {α : Type} {C : Nat} (hC : 0 < C) : CQInv C [] (CQ.init α) := by
  refine ⟨hC, by simp, by simp [CQ.init]; omega, by simp [CQ.size, CQ.init], ?_⟩
  simp [CQ.toList, CQ.size, CQ.init]


theorem rotate_shift_mod (k st : Nat) :
    ∀ i, ((if st + 1 = k + 1 then 0 else st + 1) + i) % (k + 1) =
      (st + (i + 1)) % (k + 1) := by
  intro i
  split_ifs with hw
  · rw [Nat.zero_add, show st + (i + 1) = i + (k + 1) by omega, Nat.add_mod_right]
  · rw [show st + 1 + i = st + (i + 1) by omega]

theorem rotate_slot_ne (k st : Nat) (hst : st < k + 1) {i : Nat} (hi : i < k) :
    (st + (i + 1)) % (k + 1) ≠ st := by
  intro he
  have h1 : (st + (i + 1)) % (k + 1) = st % (k + 1) := by
    rw [he, Nat.mod_eq_of_lt hst]
  have h2 : k + 1 ∣ st + (i + 1) - st := (Nat.modEq_iff_dvd' (by omega)).mp h1.symm
  rw [Nat.add_sub_cancel_left] at h2
  have := Nat.le_of_dvd (by omega) h2
  omega

theorem toList_rotate {α : Type} (k st : Nat) (hst : st < k + 1)
    (d : Nat → Option α) (x : α) :
    (List.range (k + 1)).map
        (fun i =>
          if ((if st + 1 = k + 1 then 0 else st + 1) + i) % (k + 1) = st
          then some x
          else d (((if st + 1 = k + 1 then 0 else st + 1) + i) % (k + 1))) =
      ((List.range (k + 1)).map (fun i => d ((st + i) % (k + 1)))).tail ++
        [some x] := by
  conv_rhs => rw [List.range_succ_eq_map]
  simp only [List.map_cons, List.tail_cons, List.map_map]
  rw [List.range_succ, List.map_append]
  congr 1
  · refine List.map_congr_left ?_
    intro i hi
    rw [List.mem_range] at hi
    rw [rotate_shift_mod k st i, if_neg (rotate_slot_ne k st hst hi)]
    simp [Function.comp, Nat.add_comm 1 i]
  · rw [List.map_singleton, rotate_shift_mod k st k,
      show st + (k + 1) = st + (k + 1) from rfl, Nat.add_mod_right,
      Nat.mod_eq_of_lt hst, if_pos rfl]

theorem CQ.emplace_step {α : Type} {C : Nat} (hC : 0 < C) {ys : List α} {s : CQ α}
    (h : CQInv C ys s) (x : α) :
    ∃ s', CQ.emplace C s x = some s' ∧
      CQInv C (if ys.length < C then ys ++ [x] else ys.tail ++ [x]) s' := by
  obtain ⟨hlt, hle, hfull, hsize, hlist⟩ := h
  rw [CQ.emplace, if_pos hlt]
  refine ⟨_, rfl, ?_⟩
  by_cases hf : s.full = true
  · -- the ring is saturated: the oldest element is evicted
    have hyc : ys.length = C := by
      rw [hfull] at hf
      exact of_decide_eq_true hf
    rw [if_neg (by omega)]
    obtain ⟨k, rfl⟩ : ∃ k, C = k + 1 := ⟨C - 1, by omega⟩
    have hf' : (if s.start + 1 = k + 1 then true else s.full) = true := by
      split_ifs <;> simp [hf]
    have hlen' : (ys.tail ++ [x]).length = k + 1 := by
      simp [List.length_tail, hyc]
    refine ⟨?_, ?_, ?_, ?_, ?_⟩
    · show (if s.start + 1 = k + 1 then 0 else s.start + 1) < k + 1
      split_ifs <;> omega
    · omega
    · show (if s.start + 1 = k + 1 then true else s.full) = _
      rw [hf', hlen']
      simp
    · show CQ.size (k + 1) _ = _
      rw [hlen']
      simp only [CQ.size, hf', if_true]
    · have hlist' :
          (List.range (k + 1)).map (fun i => s.data ((s.start + i) % (k + 1))) =
            ys.map some := by
        simpa [CQ.toList, CQ.size, CQ.index, hf] using hlist
      show CQ.toList (k + 1) _ = _
      unfold CQ.toList CQ.size CQ.index
      simp only [hf', if_true]
      rw [toList_rotate k s.start hlt s.data x, hlist', List.map_append,
        List.map_tail, List.map_singleton]
  · -- the ring still has room: the new element goes at the cursor
    have hf0 : s.full = false := by simpa using hf
    have hylen : ys.length = s.start := by
      rw [← hsize]
      simp [CQ.size, hf0]
    have hys_lt : ys.length < C := by
      have hne : ys.length ≠ C := by
        intro he
        rw [he] at hfull
        simp only [decide_True, decide_eq_true_eq] at hfull
        rw [hfull] at hf0
        simp at hf0
      omega
    rw [if_pos hys_lt]
    have hlist' : (List.range s.start).map (fun i => s.data i) = ys.map some := by
      simpa [CQ.toList, CQ.size, CQ.index, hf0] using hlist
    have hfull' :
        (if s.start + 1 = C then true else s.full) =
          decide ((ys ++ [x]).length = C) := by
      simp only [List.length_append, List.length_singleton, hylen, hf0]
      by_cases hw : s.start + 1 = C <;> simp [hw]
    have hsz' : CQ.size C ⟨if s.start + 1 = C then true else s.full,
        if s.start + 1 = C then 0 else s.start + 1,
        fun j => if j = s.start then some x else s.data j⟩ = s.start + 1 := by
      by_cases hw : s.start + 1 = C
      · simp [CQ.size, hw]
      · simp [CQ.size, hw, hf0]
    refine ⟨?_, ?_, hfull', ?_, ?_⟩
    · show (if s.start + 1 = C then 0 else s.start + 1) < C
      split_ifs <;> omega
    · simp only [List.length_append, List.length_singleton]
      omega
    · rw [hsz']
      simp only [List.length_append, List.length_singleton, hylen]
    · show CQ.toList C _ = _
      unfold CQ.toList
      rw [hsz']
      have hidx : ∀ i ∈ List.range (s.start + 1),
          CQ.index C ⟨if s.start + 1 = C then true else s.full,
            if s.start + 1 = C then 0 else s.start + 1,
            fun j => if j = s.start then some x else s.data j⟩ i = i := by
        intro i hi
        rw [List.mem_range] at hi
        by_cases hw : s.start + 1 = C
        · simp only [CQ.index, if_pos hw, if_true]
          rw [Nat.zero_add, Nat.mod_eq_of_lt (by omega)]
        · simp [CQ.index, hw, hf0]
      have hcg : ∀ i ∈ List.range (s.start + 1),
          (fun j => if j = s.start then some x else s.data j)
              (CQ.index C ⟨if s.start + 1 = C then true else s.full,
                if s.start + 1 = C then 0 else s.start + 1,
                fun j => if j = s.start then some x else s.data j⟩ i) =
            (fun j => if j = s.start then some x else s.data j) i := by
        intro i hi
        rw [hidx i hi]
      rw [List.map_congr_left hcg, List.range_succ, List.map_append,
        List.map_singleton]
      simp only [List.map_append, List.map_singleton]
      congr 1
      · rw [← hlist']
        refine List.map_congr_left ?_
        intro i hi
        rw [List.mem_range] at hi
        rw [if_neg (by omega)]

theorem lastN_append_one {α : Type} (C : Nat) (hC : 0 < C) (xs : List α) (x : α) :
    lastN C (xs ++ [x]) =
      if (lastN C xs).length < C then lastN C xs ++ [x]
      else (lastN C xs).tail ++ [x] := by
  have hlen : (lastN C xs).length = min xs.length C := by
    simp only [lastN, List.length_drop]
    omega
  by_cases hc : xs.length < C
  · rw [if_pos (by omega)]
    unfold lastN
    rw [show xs.length - C = 0 from by omega, List.drop_zero,
      List.length_append, List.length_singleton,
      show xs.length + 1 - C = 0 from by omega, List.drop_zero]
  · rw [if_neg (by omega)]
    unfold lastN
    rw [List.length_append, List.length_singleton, List.tail_drop,
      List.drop_append_of_le_length (by omega),
      show xs.length + 1 - C = xs.length - C + 1 from by omega]

theorem runEmplaces_ok {α : Type} (C : Nat) (hC : 0 < C) (xs : List α) :
    ∃ s, runEmplaces C xs = some s ∧ CQInv C (lastN C xs) s := by
  induction xs using List.reverseRecOn with
  | nil =>
    refine ⟨CQ.init α, rfl, ?_⟩
    have h : lastN C ([] : List α) = [] := by simp [lastN]
    rw [h]
    exact CQInv_init hC
  | append_singleton xs x ih =>
    obtain ⟨s, hs, hinv⟩ := ih
    obtain ⟨s', hs', hinv'⟩ := CQ.emplace_step hC hinv x
    refine ⟨s', ?_, ?_⟩
    · unfold runEmplaces at hs ⊢
      rw [List.foldl_append, hs]
      simpa using hs'
    · rw [lastN_append_one C hC xs x]
      exact hinv'

/-- C3: the capacity-0 edge case faults: the first `emplace` on a capacity-0
`CircleQueue` is an out-of-bounds write through the null backing pointer
(modelled as `none`) instead of the silent no-op the claim describes; for
every positive capacity `C` the claimed invariants do hold: after any finite
sequence of emplaces the iteration yields exactly the last `min C n` pushed
items oldest-first, and `size() ≤ C`. -/
theorem circle_queue_spec :
    CQ.emplace 0 (CQ.init Nat) 7 = none ∧
    (∀ C : Nat, 0 < C → ∀ xs : List Nat,
      ∃ s, runEmplaces C xs = some s ∧
        CQ.toList C s = (lastN C xs).map some ∧ CQ.size C s ≤ C) := by
  constructor
  · rfl
  · intro C hC xs
    obtain ⟨s, hs, hinv⟩ := runEmplaces_ok C hC xs
    refine ⟨s, hs, hinv.2.2.2.2, ?_⟩
    rw [hinv.2.2.2.1]
    exact hinv.2.1

/-- Witness for `circle_queue_spec`. -/
theorem circle_queue_spec_witness :
    CQ.emplace 0 (CQ.init Nat) 7 = none ∧
    (∃ s, runEmplaces 2 [4, 5, 6] = some s ∧
      CQ.toList 2 s = (lastN 2 [4, 5, 6]).map some ∧ CQ.size 2 s ≤ 2) :=
  ⟨circle_queue_spec.1, circle_queue_spec.2 2 (by decide) [4, 5, 6]⟩

/-! ## UTF-8 structure and the truncation boundary property (C6) -/

/-- Byte lists made of well-formed UTF-8 codepoint patterns: an ASCII byte,
or a 2/3/4-byte lead followed by the right number of continuation bytes. -/
inductive Utf8Valid : List Nat → Prop
  | nil : Utf8Valid []
  | ascii {b : Nat} {t : List Nat} : b < 0x80 → Utf8Valid t → Utf8Valid (b :: t)
  | two {b c1 : Nat} {t : List Nat} : 0xc0 ≤ b → b < 0xe0 →
      0x80 ≤ c1 → c1 < 0xc0 → Utf8Valid t → Utf8Valid (b :: c1 :: t)
  | three {b c1 c2 : Nat} {t : List Nat} : 0xe0 ≤ b → b < 0xf0 →
      0x80 ≤ c1 → c1 < 0xc0 → 0x80 ≤ c2 → c2 < 0xc0 → Utf8Valid t →
      Utf8Valid (b :: c1 :: c2 :: t)
  | four {b c1 c2 c3 : Nat} {t : List Nat} : 0xf0 ≤ b → b < 0xf8 →
      0x80 ≤ c1 → c1 < 0xc0 → 0x80 ≤ c2 → c2 < 0xc0 → 0x80 ≤ c3 → c3 < 0xc0 →
      Utf8Valid t → Utf8Valid (b :: c1 :: c2 :: c3 :: t)

set_option maxRecDepth 4000

theorem isCont_true_of : ∀ b : Nat, b < 0xc0 → 0x80 ≤ b → isCont b = true := by
  decide

theorem isCont_false_ascii : ∀ b : Nat, b < 0x80 → isCont b = false := by
  decide

theorem isCont_false_lead : ∀ b : Nat, b < 0xf8 → 0xc0 ≤ b → isCont b = false := by
  decide

theorem row0_pass : ∀ b : Nat, b < 0x80 → (b &&& 0x80 == 0x00) = true := by
  decide

theorem row0_fail : ∀ b : Nat, b < 0xf8 → 0x80 ≤ b → (b &&& 0x80 == 0x00) = false := by
  decide

theorem row1_pass : ∀ b : Nat, b < 0xe0 → 0xc0 ≤ b → (b &&& 0xe0 == 0xc0) = true := by
  decide

theorem row1_fail : ∀ b : Nat, b < 0xf8 → 0xe0 ≤ b → (b &&& 0xe0 == 0xc0) = false := by
  decide

theorem row2_pass : ∀ b : Nat, b < 0xf0 → 0xe0 ≤ b → (b &&& 0xf0 == 0xe0) = true := by
  decide

theorem row2_fail : ∀ b : Nat, b < 0xf8 → 0xf0 ≤ b → (b &&& 0xf0 == 0xe0) = false := by
  decide

theorem row3_pass : ∀ b : Nat, b < 0xf8 → 0xf0 ≤ b → (b &&& 0xf8 == 0xf0) = true := by
  decide

theorem utf8_head_not_cont {t : List Nat} (h : Utf8Valid t) :
    isCont (t.headD 0) = false := by
  cases h with
  | nil => decide
  | ascii hb _ =>
    rw [List.headD_cons]
    exact isCont_false_ascii _ hb
  | two hb1 hb2 _ _ _ =>
    rw [List.headD_cons]
    exact isCont_false_lead _ (by omega) (by omega)
  | three hb1 hb2 _ _ _ _ _ =>
    rw [List.headD_cons]
    exact isCont_false_lead _ (by omega) (by omega)
  | four hb1 hb2 _ _ _ _ _ _ _ =>
    rw [List.headD_cons]
    exact isCont_false_lead _ hb2 (by omega)

theorem contRun_append_of_ne {a : List Nat} (b : List Nat)
    (h : ∃ x ∈ a, isCont x = false) : contRun (a ++ b) = contRun a := by
  induction a with
  | nil => simp at h
  | cons c t ih =>
    by_cases hc : isCont c = true
    · have h' : ∃ x ∈ t, isCont x = false := by
        obtain ⟨x, hx, hxf⟩ := h
        rcases List.mem_cons.mp hx with rfl | hxt
        · rw [hc] at hxf
          cases hxf
        · exact ⟨x, hxt, hxf⟩
      simp [contRun, hc, ih h']
    · simp [contRun, hc]

theorem contRun_lt_length {a : List Nat} (h : ∃ x ∈ a, isCont x = false) :
    contRun a < a.length := by
  induction a with
  | nil => simp at h
  | cons c t ih =>
    by_cases hc : isCont c = true
    · have h' : ∃ x ∈ t, isCont x = false := by
        obtain ⟨x, hx, hxf⟩ := h
        rcases List.mem_cons.mp hx with rfl | hxt
        · rw [hc] at hxf
          cases hxf
        · exact ⟨x, hxt, hxf⟩
      have := ih h'
      simp [contRun, hc]
      omega
    · simp [contRun, hc]

theorem getD_append_left {α : Type} (a b : List α) (d : α) :
    ∀ n, n < a.length → (a ++ b).getD n d = a.getD n d := by
  intro n h
  induction a generalizing n with
  | nil => simp at h
  | cons c t ih =>
    cases n with
    | zero => rfl
    | succ m =>
      simp only [List.cons_append, List.getD_cons_succ]
      exact ih m (by simpa using h)

theorem take_append_add {α : Type} (a b : List α) (n : Nat) :
    (a ++ b).take (a.length + n) = a ++ b.take n := by
  induction a with
  | nil => simp
  | cons c t ih =>
    rw [List.cons_append, List.length_cons,
      show t.length + 1 + n = (t.length + n) + 1 from by omega,
      List.take_succ_cons, ih, List.cons_append]

theorem adjust_nil : adjust [] = [] := rfl

theorem adjust_append (hd : List Nat) {u : List Nat} (hu : u ≠ [])
    (hnc : isCont (u.headD 0) = false) :
    adjust (hd ++ u) = hd ++ adjust u := by
  have hmem : ∃ x ∈ u.reverse, isCont x = false := by
    match u, hu with
    | x :: t, _ => exact ⟨x, by simp, by simpa using hnc⟩
  have hrun : contRun (u.reverse ++ hd.reverse) = contRun u.reverse :=
    contRun_append_of_ne hd.reverse hmem
  have hlt : contRun u.reverse < u.length := by
    have := contRun_lt_length hmem
    simpa using this
  have hile : min (contRun u.reverse) 4 < u.length := by omega
  have hgetD : (u.reverse ++ hd.reverse).getD (min (contRun u.reverse) 4) 0 =
      u.reverse.getD (min (contRun u.reverse) 4) 0 :=
    getD_append_left _ _ _ _ (by simpa using hile)
  simp only [adjust, List.reverse_append, hrun, hgetD]
  split_ifs with h
  · rfl
  · rw [List.length_append,
      show hd.length + u.length - (min (contRun u.reverse) 4 + 1) =
        hd.length + (u.length - (min (contRun u.reverse) 4 + 1)) from by omega,
      take_append_add]

theorem adjust_single_keep {b : Nat} (hb : b < 0x80) : adjust [b] = [b] := by
  have h1 : isCont b = false := isCont_false_ascii b hb
  have h2 : (b &&& 0x80 == 0x00) = true := row0_pass b hb
  simp [adjust, contRun, maskCheck, h1, h2]

theorem adjust_single_drop {b : Nat} (hb1 : 0xc0 ≤ b) (hb2 : b < 0xf8) :
    adjust [b] = [] := by
  have h1 : isCont b = false := isCont_false_lead b hb2 hb1
  have h2 : (b &&& 0x80 == 0x00) = false := row0_fail b hb2 (by omega)
  simp [adjust, contRun, maskCheck, h1, h2]

theorem adjust_pair_keep {b c1 : Nat} (hb1 : 0xc0 ≤ b) (hb2 : b < 0xe0)
    (hc1 : 0x80 ≤ c1) (hc2 : c1 < 0xc0) : adjust [b, c1] = [b, c1] := by
  have h1 : isCont c1 = true := isCont_true_of c1 hc2 hc1
  have h2 : isCont b = false := isCont_false_lead b (by omega) hb1
  have h3 : (b &&& 0xe0 == 0xc0) = true := row1_pass b hb2 hb1
  simp [adjust, contRun, maskCheck, h1, h2, h3]

theorem adjust_pair_drop {b c1 : Nat} (hb1 : 0xe0 ≤ b) (hb2 : b < 0xf8)
    (hc1 : 0x80 ≤ c1) (hc2 : c1 < 0xc0) : adjust [b, c1] = [] := by
  have h1 : isCont c1 = true := isCont_true_of c1 hc2 hc1
  have h2 : isCont b = false := isCont_false_lead b hb2 (by omega)
  have h3 : (b &&& 0xe0 == 0xc0) = false := row1_fail b hb2 hb1
  simp [adjust, contRun, maskCheck, h1, h2, h3]

theorem adjust_triple_keep {b c1 c2 : Nat} (hb1 : 0xe0 ≤ b) (hb2 : b < 0xf0)
    (hc1 : 0x80 ≤ c1) (hc2 : c1 < 0xc0) (hd1 : 0x80 ≤ c2) (hd2 : c2 < 0xc0) :
    adjust [b, c1, c2] = [b, c1, c2] := by
  have h1 : isCont c1 = true := isCont_true_of c1 hc2 hc1
  have h1' : isCont c2 = true := isCont_true_of c2 hd2 hd1
  have h2 : isCont b = false := isCont_false_lead b (by omega) (by omega)
  have h3 : (b &&& 0xf0 == 0xe0) = true := row2_pass b hb2 hb1
  simp [adjust, contRun, maskCheck, h1, h1', h2, h3]

theorem adjust_triple_drop {b c1 c2 : Nat} (hb1 : 0xf0 ≤ b) (hb2 : b < 0xf8)
    (hc1 : 0x80 ≤ c1) (hc2 : c1 < 0xc0) (hd1 : 0x80 ≤ c2) (hd2 : c2 < 0xc0) :
    adjust [b, c1, c2] = [] := by
  have h1 : isCont c1 = true := isCont_true_of c1 hc2 hc1
  have h1' : isCont c2 = true := isCont_true_of c2 hd2 hd1
  have h2 : isCont b = false := isCont_false_lead b hb2 (by omega)
  have h3 : (b &&& 0xf0 == 0xe0) = false := row2_fail b hb2 hb1
  simp [adjust, contRun, maskCheck, h1, h1', h2, h3]

theorem adjust_quad_keep {b c1 c2 c3 : Nat} (hb1 : 0xf0 ≤ b) (hb2 : b < 0xf8)
    (hc1 : 0x80 ≤ c1) (hc2 : c1 < 0xc0) (hd1 : 0x80 ≤ c2) (hd2 : c2 < 0xc0)
    (he1 : 0x80 ≤ c3) (he2 : c3 < 0xc0) :
    adjust [b, c1, c2, c3] = [b, c1, c2, c3] := by
  have h1 : isCont c1 = true := isCont_true_of c1 hc2 hc1
  have h1' : isCont c2 = true := isCont_true_of c2 hd2 hd1
  have h1'' : isCont c3 = true := isCont_true_of c3 he2 he1
  have h2 : isCont b = false := isCont_false_lead b hb2 (by omega)
  have h3 : (b &&& 0xf8 == 0xf0) = true := row3_pass b hb2 hb1
  simp [adjust, contRun, maskCheck, h1, h1', h1'', h2, h3]

theorem headD_take {t : List Nat} {m : Nat} (h : t.take m ≠ []) :
    (t.take m).headD 0 = t.headD 0 := by
  cases t with
  | nil => simp at h
  | cons x t' =>
    cases m with
    | zero => simp at h
    | succ k => rfl

theorem utf8_adjust {s : List Nat} (hs : Utf8Valid s) :
    ∀ n, Utf8Valid (adjust (s.take n)) := by
  induction hs with
  | nil =>
    intro n
    rw [List.take_nil, adjust_nil]
    exact Utf8Valid.nil
  | @ascii b t hb ht ih =>
    intro n
    match n with
    | 0 =>
      show Utf8Valid (adjust [])
      rw [adjust_nil]
      exact Utf8Valid.nil
    | m + 1 =>
      show Utf8Valid (adjust (b :: t.take m))
      rcases Decidable.em (t.take m = []) with he | hne
      · rw [he, adjust_single_keep hb]
        exact Utf8Valid.ascii hb Utf8Valid.nil
      · rw [show b :: t.take m = [b] ++ t.take m from rfl,
          adjust_append [b] hne (by rw [headD_take hne]; exact utf8_head_not_cont ht)]
        exact Utf8Valid.ascii hb (ih m)
  | @two b c1 t hb1 hb2 hc1 hc2 ht ih =>
    intro n
    match n with
    | 0 =>
      show Utf8Valid (adjust [])
      rw [adjust_nil]
      exact Utf8Valid.nil
    | 1 =>
      show Utf8Valid (adjust [b])
      rw [adjust_single_drop hb1 (by omega)]
      exact Utf8Valid.nil
    | m + 2 =>
      show Utf8Valid (adjust (b :: c1 :: t.take m))
      rcases Decidable.em (t.take m = []) with he | hne
      · rw [he, adjust_pair_keep hb1 hb2 hc1 hc2]
        exact Utf8Valid.two hb1 hb2 hc1 hc2 Utf8Valid.nil
      · rw [show b :: c1 :: t.take m = [b, c1] ++ t.take m from rfl,
          adjust_append [b, c1] hne
            (by rw [headD_take hne]; exact utf8_head_not_cont ht)]
        exact Utf8Valid.two hb1 hb2 hc1 hc2 (ih m)
  | @three b c1 c2 t hb1 hb2 hc1 hc2 hd1 hd2 ht ih =>
    intro n
    match n with
    | 0 =>
      show Utf8Valid (adjust [])
      rw [adjust_nil]
      exact Utf8Valid.nil
    | 1 =>
      show Utf8Valid (adjust [b])
      rw [adjust_single_drop (by omega) (by omega)]
      exact Utf8Valid.nil
    | 2 =>
      show Utf8Valid (adjust [b, c1])
      rw [adjust_pair_drop hb1 (by omega) hc1 hc2]
      exact Utf8Valid.nil
    | m + 3 =>
      show Utf8Valid (adjust (b :: c1 :: c2 :: t.take m))
      rcases Decidable.em (t.take m = []) with he | hne
      · rw [he, adjust_triple_keep hb1 hb2 hc1 hc2 hd1 hd2]
        exact Utf8Valid.three hb1 hb2 hc1 hc2 hd1 hd2 Utf8Valid.nil
      · rw [show b :: c1 :: c2 :: t.take m = [b, c1, c2] ++ t.take m from rfl,
          adjust_append [b, c1, c2] hne
            (by rw [headD_take hne]; exact utf8_head_not_cont ht)]
        exact Utf8Valid.three hb1 hb2 hc1 hc2 hd1 hd2 (ih m)
  | @four b c1 c2 c3 t hb1 hb2 hc1 hc2 hd1 hd2 he1 he2 ht ih =>
    intro n
    match n with
    | 0 =>
      show Utf8Valid (adjust [])
      rw [adjust_nil]
      exact Utf8Valid.nil
    | 1 =>
      show Utf8Valid (adjust [b])
      rw [adjust_single_drop (by omega) hb2]
      exact Utf8Valid.nil
    | 2 =>
      show Utf8Valid (adjust [b, c1])
      rw [adjust_pair_drop (by omega) hb2 hc1 hc2]
      exact Utf8Valid.nil
    | 3 =>
      show Utf8Valid (adjust [b, c1, c2])
      rw [adjust_triple_drop hb1 hb2 hc1 hc2 hd1 hd2]
      exact Utf8Valid.nil
    | m + 4 =>
      show Utf8Valid (adjust (b :: c1 :: c2 :: c3 :: t.take m))
      rcases Decidable.em (t.take m = []) with he | hne
      · rw [he, adjust_quad_keep hb1 hb2 hc1 hc2 hd1 hd2 he1 he2]
        exact Utf8Valid.four hb1 hb2 hc1 hc2 hd1 hd2 he1 he2 Utf8Valid.nil
      · rw [show b :: c1 :: c2 :: c3 :: t.take m = [b, c1, c2, c3] ++ t.take m from rfl,
          adjust_append [b, c1, c2, c3] hne
            (by rw [headD_take hne]; exact utf8_head_not_cont ht)]
        exact Utf8Valid.four hb1 hb2 hc1 hc2 hd1 hd2 he1 he2 (ih m)

theorem utf8_all_ascii : ∀ l : List Nat, (∀ b ∈ l, b < 0x80) → Utf8Valid l := by
  intro l h
  induction l with
  | nil => exact Utf8Valid.nil
  | cons b t ih =>
    exact Utf8Valid.ascii (h b (by simp)) (ih fun d hd => h d (by simp [hd]))

/-- C6: with `--long-lines` or a hard end of at most 2048, `truncate_span`
returns `view[0..e]` unchanged; otherwise it returns the 2048-byte prefix
with any trailing partial codepoint dropped per the `mask_check` table, so
on valid UTF-8 input the result again consists of whole codepoints (it ends
at a codepoint boundary); and the `truncated` flag stored by
`try_add_match` equals `(end != text.length)`. -/
theorem truncate_span_spec :
    (∀ (llflag : Bool) (view : List Nat) (e : Nat),
        llflag = true ∨ e ≤ 2048 → truncate_span llflag view e = view.take e) ∧
    (∀ (view : List Nat) (e : Nat), 2048 < e →
        truncate_span false view e = adjust (view.take 2048)) ∧
    (∀ (view : List Nat) (e : Nat), 2048 < e → Utf8Valid view →
        Utf8Valid (truncate_span false view e)) ∧
    (∀ (re : List Nat → Bool) (llflag : Bool) (view : List Nat) (line e : Nat)
        (m : Match), m ∈ (tryAdd re llflag view line e ([], 0)).1 →
        m.text = truncate_span llflag view e ∧
        m.truncated = decide (e ≠ m.text.length) ∧ m.line = line) := by
  refine ⟨?_, ?_, ?_, ?_⟩
  · intro llflag view e h
    rcases h with h | h
    · simp [truncate_span, h]
    · simp [truncate_span, h]
  · intro view e he
    rw [truncate_span, if_neg (by simp; omega)]
  · intro view e he hv
    rw [truncate_span, if_neg (by simp; omega)]
    exact utf8_adjust hv 2048
  · intro re llflag view line e m hm
    unfold tryAdd at hm
    by_cases hre : re (truncate_span llflag view e) = true
    · simp only [hre, if_true] at hm
      simp only [List.nil_append, List.mem_singleton] at hm
      subst hm
      exact ⟨rfl, rfl, rfl⟩
    · simp only [Bool.not_eq_true] at hre
      simp [hre] at hm

/-- Witness for `truncate_span_spec`. -/
theorem truncate_span_spec_witness :
    truncate_span true [5] 1 = [5].take 1 ∧
    truncate_span false (List.replicate 2049 97) 2049 =
      adjust ((List.replicate 2049 97).take 2048) ∧
    Utf8Valid (truncate_span false (List.replicate 2049 97) 2049) ∧
    ((⟨3, [7], false⟩ : Match).text = truncate_span false [7] 1 ∧
     (⟨3, [7], false⟩ : Match).truncated =
       decide (1 ≠ ((⟨3, [7], false⟩ : Match)).text.length) ∧
     (⟨3, [7], false⟩ : Match).line = 3) :=
  ⟨truncate_span_spec.1 true [5] 1 (Or.inl rfl),
   truncate_span_spec.2.1 (List.replicate 2049 97) 2049 (by norm_num),
   truncate_span_spec.2.2.1 (List.replicate 2049 97) 2049 (by norm_num)
     (utf8_all_ascii _ (by
       intro b hb
       rw [List.eq_of_mem_replicate hb]
       norm_num)),
   truncate_span_spec.2.2.2 (fun _ => true) false [7] 3 1 ⟨3, [7], false⟩
     (by decide)⟩

/-- The largest line number among a list of collected match records
(0 when no line has matched). -/
def maxLine (ms : List Match) : Nat := ms.foldl (fun a m => max a m.line) 0

/-- Invariant carried by the line walk after processing `L` lines: every
collected match lies on a line of number at most `L`, and the running
`maxWidth` (initially `uint8_t maxWidth = 0`) equals `calcWidth` of the
largest matched line as soon as one line has matched. -/
def WidthInv (L : Nat) (acc : List Match × Nat) : Prop :=
  (∀ m ∈ acc.1, m.line ≤ L) ∧ (acc.1 = [] → acc.2 = 0) ∧
    (acc.1 ≠ [] → acc.2 = calcWidth (maxLine acc.1))

theorem foldl_max_le {L : Nat} :
    ∀ (ms : List Match) (a : Nat), a ≤ L → (∀ m ∈ ms, m.line ≤ L) →
      ms.foldl (fun a m => max a m.line) a ≤ L := by
  intro ms
  induction ms with
  | nil =>
    intro a ha _
    exact ha
  | cons m t ih =>
    intro a ha h
    rw [List.foldl_cons]
    refine ih _ (by have := h m (by simp); omega) fun d hd => h d (by simp [hd])

theorem maxLine_le {ms : List Match} {L : Nat} (h : ∀ m ∈ ms, m.line ≤ L) :
    maxLine ms ≤ L :=
  foldl_max_le ms 0 (Nat.zero_le L) h

theorem maxLine_append (ms : List Match) (m : Match) :
    maxLine (ms ++ [m]) = max (maxLine ms) m.line := by
  unfold maxLine
  rw [List.foldl_append]
  rfl

theorem tryAdd_inv (re : List Nat → Bool) (llflag : Bool) (view : List Nat)
    {line : Nat} (e : Nat) {acc : List Match × Nat} (h : WidthInv line acc) :
    WidthInv (line + 1) (tryAdd re llflag view (line + 1) e acc) := by
  obtain ⟨h1, h2, h3⟩ := h
  simp only [tryAdd]
  by_cases hre : re (truncate_span llflag view e) = true
  · rw [if_pos hre]
    refine ⟨?_, ?_, ?_⟩
    · intro m hm
      rcases List.mem_append.mp hm with hmem | hmem
      · exact Nat.le_trans (h1 m hmem) (by omega)
      · rw [List.mem_singleton] at hmem
        subst hmem
        exact Nat.le_refl _
    · intro he
      simp at he
    · intro _
      show calcWidth (line + 1) = _
      rw [maxLine_append]
      have hle : maxLine acc.1 ≤ line := maxLine_le h1
      rw [show max (maxLine acc.1) (line + 1) = line + 1 from by omega]
  · rw [if_neg hre]
    exact ⟨fun m hm => Nat.le_trans (h1 m hm) (by omega), h2, h3⟩

theorem collectGo_inv (re : List Nat → Bool) (llflag : Bool) :
    ∀ (fuel : Nat) (view : List Nat) (line : Nat) (acc : List Match × Nat),
      WidthInv line acc →
      ∃ L, line ≤ L ∧ WidthInv L (collectGo re llflag fuel view line acc) := by
  intro fuel
  induction fuel with
  | zero =>
    intro view line acc h
    exact ⟨line, Nat.le_refl _, h⟩
  | succ fuel ih =>
    intro view line acc h
    rw [collectGo]
    by_cases hv : view.isEmpty = true
    · rw [if_pos hv]
      exact ⟨line, Nat.le_refl _, h⟩
    · rw [if_neg hv]
      cases hnl : findNl view with
      | none =>
        exact ⟨line + 1, by omega, tryAdd_inv re llflag view view.length h⟩
      | some nl =>
        obtain ⟨L, hL, hInv⟩ :=
          ih (view.drop (nl + 1)) (line + 1)
            (tryAdd re llflag view (line + 1) nl acc)
            (tryAdd_inv re llflag view nl h)
        exact ⟨L, by omega, hInv⟩

/-- C8 (amended): `calcWidth` is the decimal width capped at 8, and the
column width carried by an emitted block — the `maxWidth` every printed
line number of that file is padded to — equals `calcWidth` of the largest
matched line number, i.e. the decimal width of the largest emitted line
number capped at 8 (so nine-digit line numbers of 100,000,000 or more are
padded to 8, not to their decimal width). -/
theorem calcWidth_capped :
    (∀ n : Nat, calcWidth n = min (Nat.log 10 n + 1) 8) ∧
    (∀ (re : List Nat → Bool) (llflag : Bool) (content : List Nat)
        (ms : List Match) (w : Nat),
        searchJob false re llflag content = .block ms w →
        (ms = [] → w = 0) ∧
        (ms ≠ [] → w = calcWidth (maxLine ms) ∧
          w = min (Nat.log 10 (maxLine ms) + 1) 8)) := by
  refine ⟨calcWidth_eq_log_min, ?_⟩
  intro re llflag content ms w hblock
  unfold searchJob at hblock
  by_cases hbin : is_binary (content.take 512) = true
  · rw [if_pos hbin] at hblock
    exact absurd hblock (by simp)
  · rw [if_neg hbin] at hblock
    by_cases hre : re content = true
    · simp only [hre, Bool.not_true, Bool.false_eq_true, if_false] at hblock
      injection hblock with hms hw
      obtain ⟨L, _, hInv⟩ :=
        collectGo_inv re llflag (content.length + 1) content 0 ([], 0)
          ⟨by simp, fun _ => rfl, fun hne => absurd rfl hne⟩
      have hInv' : WidthInv L (collectMatches re llflag content) := hInv
      subst hms
      subst hw
      constructor
      · intro he
        exact hInv'.2.1 he
      · intro hne
        refine ⟨hInv'.2.2 hne, ?_⟩
        rw [hInv'.2.2 hne, calcWidth_eq_log_min]
    · rw [if_pos (by simp [Bool.not_eq_true] at hre ⊢; exact hre)] at hblock
      exact absurd hblock (by simp)

/-- Witness for `calcWidth_capped`: the one-line file `a` with an
always-matching pattern produces the block `[⟨1, [97], false⟩]` with
column width 1. -/
theorem calcWidth_capped_witness :
    calcWidth 5 = min (Nat.log 10 5 + 1) 8 ∧
    ((1 : Nat) = calcWidth (maxLine [⟨1, [97], false⟩]) ∧
     (1 : Nat) = min (Nat.log 10 (maxLine [⟨1, [97], false⟩]) + 1) 8) :=
  ⟨calcWidth_capped.1 5,
   (calcWidth_capped.2 (fun _ => true) false [97] [⟨1, [97], false⟩] 1
     (by decide)).2 (by decide)⟩
